import Mathlib

/-!
Verification of the retrieval-and-grounding pipeline of the local PDF RAG
service (Go sources under internal/infrastructure/adapters and the PDF
chunker).  Strings are modelled as lists of characters and the float64
scores as rationals; the Go loops are modelled as structural recursions.
The `sort.Slice` descending sort is modelled by `List.insertionSort` with
the nonincreasing-score relation (a particular descending permutation).
-/

namespace LocalPdfRag

/-- Go strings are modelled as lists of characters. -/
abbrev Str := List Char

/-- unicode.IsSpace: the White_Space code points Go splits fields on — tab,
LF, VT, FF, CR, space, NEL, NBSP, Ogham space mark, the U+2000 block, line
and paragraph separators, narrow and medium mathematical spaces, and the
ideographic space. -/
def goIsSpace (c : Char) : Bool :=
  c.toNat = 32 || (9 ≤ c.toNat && c.toNat ≤ 13) || c.toNat = 133 || c.toNat = 160
    || c.toNat = 5760 || (8192 ≤ c.toNat && c.toNat ≤ 8202) || c.toNat = 8232
    || c.toNat = 8233 || c.toNat = 8239 || c.toNat = 8287 || c.toNat = 12288

/-- Accumulator worker for `fields`: `acc` holds the current word reversed. -/
def fieldsAux : List Char → List Char → List Str
  | [], acc => if acc = [] then [] else [acc.reverse]
  | c :: rest, acc =>
    if goIsSpace c then
      if acc = [] then fieldsAux rest [] else acc.reverse :: fieldsAux rest []
    else fieldsAux rest (c :: acc)

/-- strings.Fields: split into maximal runs of non-space characters. -/
def fields (s : Str) : List Str :=
  fieldsAux s []

/-- strings.Join: concatenate the elements with the separator between them. -/
def goJoin : List Str → Str → Str
  | [], _ => []
  | [w], _ => w
  | w :: w2 :: rest, sep => w ++ sep ++ goJoin (w2 :: rest) sep

/-- strings.Contains: `pat` occurs as a contiguous substring of `s`
(every string contains the empty string). -/
def containsSub : Str → Str → Bool
  | s, pat =>
    match s with
    | [] => pat.isEmpty
    | _ :: t => pat.isPrefixOf s || containsSub t pat

/-- The strings.ToLower step: ASCII A-Z and the Latin-1 uppercase letters map
32 codepoints up (the multiplication sign 0xD7 excepted), and the two code
points whose Unicode simple lowercase is an ASCII letter are mapped
explicitly — U+0130 (dotted capital I) to i, U+212A (Kelvin sign) to k.
Every remaining character is left unchanged: its Unicode lowercase stays
outside [a-z0-9] and outside the accent-fold table, so the later
fold-and-sanitize passes send the model's character and Go's lowercase of it
to the same result (a space unless the character is already lowercase
alphanumeric or a kept space). -/
def goToLower (c : Char) : Char :=
  if 65 ≤ c.toNat ∧ c.toNat ≤ 90 then Char.ofNat (c.toNat + 32)
  else if 192 ≤ c.toNat ∧ c.toNat ≤ 222 ∧ c.toNat ≠ 215 then Char.ofNat (c.toNat + 32)
  else if c.toNat = 304 then 'i'
  else if c.toNat = 8490 then 'k'
  else c

/-- strings.ToLower over a whole string. -/
def toLowerStr (s : Str) : Str :=
  s.map goToLower

/-- The hardcoded accent-folding table of CalculateRelevanceScore: each of the
ten replacements is a single character, so the sequence of strings.ReplaceAll
calls acts characterwise (the targets are ASCII, never themselves replaced,
so the map order is irrelevant). -/
def accentFold (c : Char) : Char :=
  if c = 'ó' then 'o'
  else if c = 'á' then 'a'
  else if c = 'é' then 'e'
  else if c = 'í' then 'i'
  else if c = 'ú' then 'u'
  else if c = 'ñ' then 'n'
  else if c = 'ç' then 'c'
  else if c = 'ü' then 'u'
  else if c = 'ö' then 'o'
  else if c = 'ä' then 'a'
  else c

/-- The keep-or-space pass of the scorer: characters in [a-z0-9 ] are kept,
every other character becomes a space. -/
def sanitizeChar (c : Char) : Char :=
  if (97 ≤ c.toNat ∧ c.toNat ≤ 122) ∨ (48 ≤ c.toNat ∧ c.toNat ≤ 57) ∨ c.toNat = 32 then c
  else ' '

/-- The normalize closure of CalculateRelevanceScore: lowercase, fold accents,
replace non-[a-z0-9] characters with spaces, and collapse whitespace by
re-joining the fields with single spaces. -/
def normalize (s : Str) : Str :=
  goJoin (fields (((s.map goToLower).map accentFold).map sanitizeChar)) [' ']

/-- Occurrences of `q` in a token list; `chunkTF[q]` of the Go map (0 when
absent). -/
def countOcc (q : Str) : List Str → Nat
  | [] => 0
  | t :: ts => (if t = q then 1 else 0) + countOcc q ts

/-- The partial-match scan: some chunk token contains `q` or is contained in
`q`.  The Go loop ranges over the keys of the term-frequency map; existence
over the token list is the same condition. -/
def partialHitB (chunkTokens : List Str) (q : Str) : Bool :=
  chunkTokens.any (fun t => containsSub t q || containsSub q t)

/-- The per-token scoring loop of CalculateRelevanceScore: returns the
accumulated match score and the covered-token count.  The Go loop accumulates
left to right; rational addition commutes, so accumulating from the right is
the same total. -/
def matchLoop (chunkTokens : List Str) : List Str → ℚ × Nat
  | [] => (0, 0)
  | q :: rest =>
    let acc := matchLoop chunkTokens rest
    let tf := countOcc q chunkTokens
    if 0 < tf then (12 * (1 + (1 / 10) * ((tf : ℚ) - 1)) + acc.1, acc.2 + 1)
    else if 4 ≤ q.length ∧ partialHitB chunkTokens q = true then (4 + acc.1, acc.2)
    else acc

/-- CalculateRelevanceScore of simple_rag_service.go: normalize and tokenize
both sides, return 0 when either token list is empty, otherwise the phrase
bonus (40, for a verbatim occurrence of a query of length at least 8), the
term-frequency weighted token matches, the flat partial-match bonuses, and
the coverage reward 20 * covered/total, all damped by 1 + 0.05 * query
length. -/
def calculateRelevanceScore (questionWords : List Str) (chunkText : Str) : ℚ :=
  let normalizedChunk := normalize chunkText
  let normalizedQuestion := normalize (goJoin questionWords [' '])
  let chunkTokens := fields normalizedChunk
  let questionTokens := fields normalizedQuestion
  if chunkTokens = [] ∨ questionTokens = [] then 0
  else
    let phrase : ℚ :=
      if containsSub normalizedChunk normalizedQuestion = true ∧ 8 ≤ normalizedQuestion.length
      then 40 else 0
    let res := matchLoop chunkTokens questionTokens
    let coverage : ℚ := (res.2 : ℚ) / (questionTokens.length : ℚ)
    (phrase + res.1 + 20 * coverage) / (1 + (1 / 20) * (questionTokens.length : ℚ))

/-- The reference scorer written from the words of spec section 4.2: the same
normalization and tokenization, then an explicit sum of the four components
(exact-phrase bonus, per-token term-frequency credits, flat partial-match
bonuses for unmatched long tokens, and the coverage bonus), divided by the
query-length damping factor. -/
def specRelevanceScore (questionWords : List Str) (chunkText : Str) : ℚ :=
  let nc := normalize chunkText
  let nq := normalize (goJoin questionWords [' '])
  let ct := fields nc
  let qt := fields nq
  if ct = [] ∨ qt = [] then 0
  else
    let phraseBonus : ℚ := if containsSub nc nq = true ∧ 8 ≤ nq.length then 40 else 0
    let exactBonus : ℚ :=
      ((qt.filter (fun q => decide (0 < countOcc q ct))).map
        (fun q => 12 * (1 + (1 / 10) * ((countOcc q ct : ℚ) - 1)))).sum
    let partialBonus : ℚ :=
      4 * (((qt.filter
        (fun q => decide (countOcc q ct = 0) && decide (4 ≤ q.length) && partialHitB ct q)).length : ℚ))
    let covered : ℕ := (qt.filter (fun q => decide (0 < countOcc q ct))).length
    let coverageBonus : ℚ := 20 * ((covered : ℚ) / (qt.length : ℚ))
    (phraseBonus + exactBonus + partialBonus + coverageBonus)
      / (1 + (1 / 20) * (qt.length : ℚ))

theorem matchLoop_eq (ct : List Str) (qt : List Str) :
    matchLoop ct qt =
      (((qt.filter (fun q => decide (0 < countOcc q ct))).map
          (fun q => 12 * (1 + (1 / 10) * ((countOcc q ct : ℚ) - 1)))).sum
        + 4 * (((qt.filter
            (fun q => decide (countOcc q ct = 0) && decide (4 ≤ q.length) && partialHitB ct q)).length : ℚ)),
       (qt.filter (fun q => decide (0 < countOcc q ct))).length) := by
  induction qt with
  | nil => simp [matchLoop]
  | cons q rest ih =>
    simp only [matchLoop, ih, List.filter_cons]
    by_cases h1 : 0 < countOcc q ct
    · have h0 : ¬ countOcc q ct = 0 := by omega
      simp [h1, h0]
      ring
    · have h0 : countOcc q ct = 0 := by omega
      by_cases h2 : 4 ≤ q.length ∧ partialHitB ct q = true
      · simp [h1, h0, h2.1, h2.2]
        ring
      · rw [if_neg h1, if_neg h2]
        rcases Classical.em (4 ≤ q.length) with h3 | h3
        · have h4 : partialHitB ct q = false := by
            rcases Bool.eq_false_or_eq_true (partialHitB ct q) with h | h
            · exact absurd ⟨h3, h⟩ h2
            · exact h
          simp [h1, h0, h3, h4]
        · simp [h1, h0, h3]

/-- C1: CalculateRelevanceScore agrees with the reference scorer of spec
section 4.2 on every query token list and chunk text. -/
theorem relevance_score_matches_spec (questionWords : List Str) (chunkText : Str) :
    calculateRelevanceScore questionWords chunkText
      = specRelevanceScore questionWords chunkText := by
  unfold calculateRelevanceScore specRelevanceScore
  simp only [matchLoop_eq]
  split
  · rfl
  · ring

/-- The UTF-8 byte width of a scalar value: 1 below U+0080, 2 below U+0800,
3 below U+10000, otherwise 4. -/
def charUtf8Size (c : Char) : Nat :=
  if c.toNat < 128 then 1
  else if c.toNat < 2048 then 2
  else if c.toNat < 65536 then 3
  else 4

/-- Go len() on a string counts UTF-8 bytes: the sum of the byte widths of
its characters. -/
def utf8Len (s : Str) : Nat :=
  (s.map charUtf8Size).sum

theorem utf8Len_append (a b : Str) : utf8Len (a ++ b) = utf8Len a + utf8Len b := by
  simp [utf8Len]

theorem utf8Len_append_space (s : Str) : utf8Len (s ++ [' ']) = utf8Len s + 1 := by
  rw [utf8Len_append]
  rfl

/-- strings.TrimSpace: drop white space from both ends. -/
def trimSpace (s : Str) : Str :=
  ((s.dropWhile goIsSpace).reverse.dropWhile goIsSpace).reverse

/-- The chunk-size target of splitIntoChunks (bytes). -/
def maxChunkSize : Nat := 1000

/-- The overlap word budget: overlapSize / 10 = 200 / 10 words. -/
def overlapWordCount : Nat := 20

/-- The word loop of splitIntoChunks (pdf_processor): words are appended to
the running buffer (each followed by a space); the chunk closes when the
buffer's byte length (currentChunk.Len()) reaches `maxChunkSize` or the
input ends; a closed chunk is emitted only when its trimmed text is longer
than 50 bytes (len(chunkText) > 50); after a non-final close the next buffer
is seeded with the trailing `overlapWordCount` words of the emitted chunk.
Only the chunk texts are modelled; the page number and identifier tags
carried by the Go struct do not affect which texts are produced. -/
def splitLoop : List Str → Str → List Str
  | [], _ => []
  | [w], buf =>
    let chunkText := trimSpace (buf ++ w ++ [' '])
    if 50 < utf8Len chunkText then [chunkText] else []
  | w :: w2 :: rest, buf =>
    let buf' := buf ++ w ++ [' ']
    if maxChunkSize ≤ utf8Len buf' then
      let chunkText := trimSpace buf'
      if 50 < utf8Len chunkText then
        let overlapWords := fields chunkText
        let overlapStart := overlapWords.length - overlapWordCount
        let newBuf :=
          if overlapStart < overlapWords.length
          then goJoin (overlapWords.drop overlapStart) [' '] ++ [' ']
          else []
        chunkText :: splitLoop (w2 :: rest) newBuf
      else splitLoop (w2 :: rest) []
    else splitLoop (w2 :: rest) buf'

/-- splitIntoChunks: split the page text into words and run the chunking
loop with an empty buffer. -/
def splitIntoChunks (text : Str) : List Str :=
  splitLoop (fields text) []

theorem splitLoop_mem_length (words : List Str) :
    ∀ (buf : Str) (c : Str), c ∈ splitLoop words buf → 50 < utf8Len c := by
  induction words with
  | nil => intro buf c hc; simp [splitLoop] at hc
  | cons w rest ih =>
    intro buf c hc
    cases rest with
    | nil =>
      simp only [splitLoop] at hc
      split at hc
      · rcases List.mem_singleton.mp hc with h
        subst h; assumption
      · simp at hc
    | cons w2 rest2 =>
      simp only [splitLoop] at hc
      split at hc
      · split at hc
        · rcases List.mem_cons.mp hc with h | h
          · subst h; assumption
          · exact ih _ _ h
        · exact ih _ _ hc
      · exact ih _ _ hc

/-- C4 (amended): every chunk emitted by splitIntoChunks has trimmed text
strictly longer than 50 UTF-8 bytes (the unit Go's len() counts). -/
theorem emitted_chunks_longer_than_fifty (text : Str) (c : Str)
    (hc : c ∈ splitIntoChunks text) : 50 < utf8Len c :=
  splitLoop_mem_length (fields text) [] c hc

/-- C4 (witness): a Persian page of 27 two-byte letters (54 bytes, only 27
characters) is emitted as one chunk, and its byte length exceeds 50 — the
threshold counts bytes, not characters. -/
theorem emitted_chunks_longer_than_fifty_witness :
    List.replicate 27 'ا' ∈ splitIntoChunks (List.replicate 27 'ا')
      ∧ (List.replicate 27 'ا').length = 27
      ∧ 50 < utf8Len (List.replicate 27 'ا') :=
  ⟨by decide, by decide, emitted_chunks_longer_than_fifty (List.replicate 27 'ا')
    (List.replicate 27 'ا') (by decide)⟩

/-- C4 (counterexample): a closed chunk whose trimmed text is exactly 50
bytes (here, 50 ASCII characters) is discarded, not emitted: the chunker
drops the whole 50-byte page. -/
theorem chunk_of_trimmed_length_fifty_discarded :
    (trimSpace (List.replicate 50 'a')).length = 50
      ∧ utf8Len (trimSpace (List.replicate 50 'a')) = 50
      ∧ splitIntoChunks (List.replicate 50 'a') = [] := by
  refine ⟨by decide, by decide, by decide⟩

/-- A well-formed word as produced by `fields`: nonempty and free of white
space. -/
def wordOk (w : Str) : Prop := w ≠ [] ∧ ∀ c ∈ w, goIsSpace c = false

theorem fieldsAux_append_word (w : Str) :
    ∀ (s : Str) (acc : List Char), (∀ c ∈ w, goIsSpace c = false) →
      fieldsAux (w ++ s) acc = fieldsAux s (w.reverse ++ acc) := by
  induction w with
  | nil => intro s acc _; simp
  | cons c w ih =>
    intro s acc hw
    have hc : goIsSpace c = false := hw c (List.mem_cons_self c w)
    simp only [List.cons_append, fieldsAux, hc, Bool.false_eq_true, if_false]
    have h2 := ih s (c :: acc) (fun d hd => hw d (List.mem_cons_of_mem c hd))
    rw [List.reverse_cons, List.append_assoc, List.singleton_append]
    exact h2

theorem fields_word_cons (w t : Str) (hw : wordOk w) :
    fields (w ++ [' '] ++ t) = w :: fields t := by
  unfold fields
  rw [List.append_assoc, List.singleton_append,
    fieldsAux_append_word w (' ' :: t) [] hw.2]
  have hsp : goIsSpace ' ' = true := by decide
  have hrev : w.reverse ++ [] ≠ [] := by
    simp [List.reverse_eq_nil_iff, hw.1]
  simp only [fieldsAux, hsp, if_true, if_neg hrev]
  simp

theorem fields_word (w : Str) (hw : wordOk w) : fields w = [w] := by
  unfold fields
  have h : w ++ ([] : Str) = w := List.append_nil w
  rw [← h, fieldsAux_append_word w [] [] hw.2]
  have hrev : w.reverse ++ [] ≠ [] := by
    simp [List.reverse_eq_nil_iff, hw.1]
  simp only [fieldsAux, if_neg hrev]
  simp

theorem goJoin_cons (w : Str) (ws : List Str) (sep : Str) (h : ws ≠ []) :
    goJoin (w :: ws) sep = w ++ sep ++ goJoin ws sep := by
  cases ws with
  | nil => exact absurd rfl h
  | cons w2 rest => rfl

theorem goJoin_append (ws ys : List Str) (h1 : ws ≠ []) (h2 : ys ≠ []) :
    goJoin (ws ++ ys) [' '] = goJoin ws [' '] ++ [' '] ++ goJoin ys [' '] := by
  induction ws with
  | nil => exact absurd rfl h1
  | cons w rest ih =>
    cases rest with
    | nil =>
      cases ys with
      | nil => exact absurd rfl h2
      | cons y yrest => rfl
    | cons w2 rest2 =>
      have hne : (w2 :: rest2) ++ ys ≠ [] := by simp
      rw [List.cons_append, goJoin_cons w ((w2 :: rest2) ++ ys) [' '] hne,
        ih (by simp), goJoin_cons w (w2 :: rest2) [' '] (by simp)]
      simp [List.append_assoc]

theorem fields_goJoin_space (ws : List Str) (hws : ∀ w ∈ ws, wordOk w) :
    fields (goJoin ws [' '] ++ [' ']) = ws := by
  induction ws with
  | nil => decide
  | cons w rest ih =>
    cases rest with
    | nil =>
      have hw : wordOk w := hws w (List.mem_cons_self w [])
      have : goJoin [w] [' '] ++ [' '] = w ++ [' '] ++ ([] : Str) := by simp [goJoin]
      rw [this, fields_word_cons w [] hw]
      simp [fields, fieldsAux]
    | cons w2 rest2 =>
      have hw : wordOk w := hws w (List.mem_cons_self w (w2 :: rest2))
      rw [goJoin_cons w (w2 :: rest2) [' '] (by simp), List.append_assoc,
        List.append_assoc, ← List.append_assoc w,
        fields_word_cons w (goJoin (w2 :: rest2) [' '] ++ [' ']) hw,
        ih (fun x hx => hws x (List.mem_cons_of_mem w hx))]

theorem fields_goJoin (ws : List Str) (h : ws ≠ []) (hws : ∀ w ∈ ws, wordOk w) :
    fields (goJoin ws [' ']) = ws := by
  induction ws with
  | nil => exact absurd rfl h
  | cons w rest ih =>
    cases rest with
    | nil =>
      exact fields_word w (hws w (List.mem_cons_self w []))
    | cons w2 rest2 =>
      rw [goJoin_cons w (w2 :: rest2) [' '] (by simp),
        fields_word_cons w (goJoin (w2 :: rest2) [' ']) (hws w (by simp)),
        ih (by simp) (fun x hx => hws x (List.mem_cons_of_mem w hx))]

theorem goJoin_head_not_space (ws : List Str) (h : ws ≠ [])
    (hws : ∀ w ∈ ws, wordOk w) :
    ∃ c t, goJoin ws [' '] = c :: t ∧ goIsSpace c = false := by
  cases ws with
  | nil => exact absurd rfl h
  | cons w rest =>
    have hw : wordOk w := hws w (List.mem_cons_self w rest)
    obtain ⟨c, t, hct⟩ := List.exists_cons_of_ne_nil hw.1
    cases rest with
    | nil =>
      exact ⟨c, t, by simp [goJoin, hct], hw.2 c (by rw [hct]; exact List.mem_cons_self c t)⟩
    | cons w2 rest2 =>
      refine ⟨c, t ++ [' '] ++ goJoin (w2 :: rest2) [' '], ?_, ?_⟩
      · rw [goJoin_cons w (w2 :: rest2) [' '] (by simp), hct]
        simp [List.append_assoc]
      · exact hw.2 c (by rw [hct]; exact List.mem_cons_self c t)

theorem goJoin_reverse_head_not_space (ws : List Str) (h : ws ≠ [])
    (hws : ∀ w ∈ ws, wordOk w) :
    ∃ c t, (goJoin ws [' ']).reverse = c :: t ∧ goIsSpace c = false := by
  induction ws with
  | nil => exact absurd rfl h
  | cons w rest ih =>
    cases rest with
    | nil =>
      have hw : wordOk w := hws w (List.mem_cons_self w [])
      have hne : (goJoin [w] [' ']).reverse ≠ [] := by
        simp [goJoin, List.reverse_eq_nil_iff, hw.1]
      obtain ⟨c, t, hct⟩ := List.exists_cons_of_ne_nil hne
      refine ⟨c, t, hct, hw.2 c ?_⟩
      have : c ∈ (goJoin [w] [' ']).reverse := by rw [hct]; exact List.mem_cons_self c t
      simpa [goJoin] using this
    | cons w2 rest2 =>
      obtain ⟨c, t, hct, hc⟩ :=
        ih (by simp) (fun x hx => hws x (List.mem_cons_of_mem w hx))
      refine ⟨c, t ++ [' '] ++ w.reverse, ?_, hc⟩
      rw [goJoin_cons w (w2 :: rest2) [' '] (by simp)]
      simp [List.reverse_append, hct, List.append_assoc]

theorem trimSpace_goJoin (ws : List Str) (h : ws ≠ [])
    (hws : ∀ w ∈ ws, wordOk w) :
    trimSpace (goJoin ws [' '] ++ [' ']) = goJoin ws [' '] := by
  obtain ⟨c, t, hct, hc⟩ := goJoin_head_not_space ws h hws
  obtain ⟨c2, t2, hct2, hc2⟩ := goJoin_reverse_head_not_space ws h hws
  unfold trimSpace
  have h1 : List.dropWhile goIsSpace (goJoin ws [' '] ++ [' '])
      = goJoin ws [' '] ++ [' '] := by
    rw [hct]
    simp [List.dropWhile_cons, hc]
  rw [h1, List.reverse_append, List.reverse_singleton, List.singleton_append,
    List.dropWhile_cons, if_pos (show goIsSpace ' ' = true by decide), hct2]
  have h3 : List.dropWhile goIsSpace (c2 :: t2) = c2 :: t2 := by
    simp [List.dropWhile_cons, hc2]
  rw [h3, ← hct2, List.reverse_reverse]

theorem fieldsAux_wordOk (s : Str) :
    ∀ acc : List Char, (∀ c ∈ acc, goIsSpace c = false) →
      ∀ w ∈ fieldsAux s acc, wordOk w := by
  induction s with
  | nil =>
    intro acc hacc w hw
    simp only [fieldsAux] at hw
    split at hw
    · simp at hw
    · rcases List.mem_singleton.mp hw with h
      subst h
      constructor
      · simpa [List.reverse_eq_nil_iff]
      · intro c hc
        exact hacc c (List.mem_reverse.mp hc)
  | cons c rest ih =>
    intro acc hacc w hw
    simp only [fieldsAux] at hw
    by_cases hc : goIsSpace c = true
    · rw [if_pos hc] at hw
      split at hw
      · exact ih [] (by simp) w hw
      · rcases List.mem_cons.mp hw with h | h
        · subst h
          constructor
          · simpa [List.reverse_eq_nil_iff]
          · intro d hd
            exact hacc d (List.mem_reverse.mp hd)
        · exact ih [] (by simp) w h
    · rw [if_neg hc] at hw
      have hcf : goIsSpace c = false := by
        simpa using hc
      refine ih (c :: acc) ?_ w hw
      intro d hd
      rcases List.mem_cons.mp hd with h | h
      · subst h; exact hcf
      · exact hacc d h

theorem fields_all_wordOk (s : Str) : ∀ w ∈ fields s, wordOk w :=
  fieldsAux_wordOk s [] (by simp)

/-- The buffer contents immediately after seeding with the word list `ws`:
the words joined by single spaces, with a trailing space (empty for
an empty seed). -/
def bufOf (ws : List Str) : Str :=
  if ws = [] then [] else goJoin ws [' '] ++ [' ']

/-- The trailing (up to `overlapWordCount`) words of a chunk text, joined by
single spaces: the overlap seed the chunker computes from an emitted chunk. -/
def tailWords (c : Str) : Str :=
  goJoin ((fields c).drop ((fields c).length - overlapWordCount)) [' ']

/-- The overlap property between consecutive chunks: the next chunk text
begins with the trailing words of the previous one. -/
def overlapRel (a b : Str) : Prop := tailWords a <+: b

theorem bufOf_snoc (ws : List Str) (w : Str) :
    bufOf ws ++ w ++ [' '] = bufOf (ws ++ [w]) := by
  unfold bufOf
  by_cases h : ws = []
  · subst h; simp [goJoin]
  · rw [if_neg h, if_neg (by simp : ws ++ [w] ≠ []),
      goJoin_append ws [w] h (by simp)]
    simp [goJoin, List.append_assoc]

theorem trimSpace_bufOf (ws : List Str) (h : ws ≠ [])
    (hws : ∀ w ∈ ws, wordOk w) :
    trimSpace (bufOf ws) = goJoin ws [' '] := by
  rw [bufOf, if_neg h]
  exact trimSpace_goJoin ws h hws

theorem splitLoop_chain (words : List Str) :
    ∀ ws0 : List Str, (∀ w ∈ words, wordOk w) → (∀ w ∈ ws0, wordOk w) →
      List.Chain' overlapRel (splitLoop words (bufOf ws0))
      ∧ ∀ c, (splitLoop words (bufOf ws0)).head? = some c →
          ∃ ys, ys ≠ [] ∧ (∀ w ∈ ys, wordOk w) ∧ c = goJoin (ws0 ++ ys) [' '] := by
  induction words with
  | nil =>
    intro ws0 _ _
    constructor
    · simp [splitLoop]
    · intro c hc; simp [splitLoop] at hc
  | cons w rest ih =>
    intro ws0 hwords hws0
    have hw : wordOk w := hwords w (List.mem_cons_self w rest)
    have hsnoc : ∀ x ∈ ws0 ++ [w], wordOk x := by
      intro x hx
      rcases List.mem_append.mp hx with h | h
      · exact hws0 x h
      · rcases List.mem_singleton.mp h with h
        subst h; exact hw
    have hct : trimSpace (bufOf ws0 ++ w ++ [' ']) = goJoin (ws0 ++ [w]) [' '] := by
      rw [bufOf_snoc]
      exact trimSpace_bufOf (ws0 ++ [w]) (by simp) hsnoc
    cases rest with
    | nil =>
      simp only [splitLoop, hct]
      split
      · constructor
        · exact List.chain'_singleton _
        · intro c hc
          simp only [List.head?_cons, Option.some.injEq] at hc
          exact ⟨[w], by simp, fun x hx => by
            rcases List.mem_singleton.mp hx with h; subst h; exact hw, hc.symm⟩
      · constructor
        · exact List.chain'_nil
        · intro c hc; simp at hc
    | cons w2 rest2 =>
      have hrest : ∀ x ∈ w2 :: rest2, wordOk x :=
        fun x hx => hwords x (List.mem_cons_of_mem w hx)
      simp only [splitLoop]
      by_cases hclose : maxChunkSize ≤ utf8Len (bufOf ws0 ++ w ++ [' '])
      · rw [if_pos hclose]
        by_cases hemit : 50 < utf8Len (trimSpace (bufOf ws0 ++ w ++ [' ']))
        · rw [if_pos hemit]
          have hfields : fields (trimSpace (bufOf ws0 ++ w ++ [' '])) = ws0 ++ [w] := by
            rw [hct]
            exact fields_goJoin (ws0 ++ [w]) (by simp) hsnoc
          set sws := (ws0 ++ [w]).drop ((ws0 ++ [w]).length - overlapWordCount) with hsws
          have hlt : (ws0 ++ [w]).length - overlapWordCount < (ws0 ++ [w]).length := by
            have h0 : 0 < (ws0 ++ [w]).length := by simp
            have hk : overlapWordCount = 20 := rfl
            omega
          have hswsne : sws ≠ [] := by
            rw [hsws]
            intro hnil
            have h1 : ((ws0 ++ [w]).drop ((ws0 ++ [w]).length - overlapWordCount)).length = 0 := by
              rw [hnil]; rfl
            rw [List.length_drop] at h1
            omega
          have hswsok : ∀ x ∈ sws, wordOk x := by
            intro x hx
            exact hsnoc x (List.mem_of_mem_drop hx)
          have hnewbuf :
              (if (ws0 ++ [w]).length - overlapWordCount < (ws0 ++ [w]).length
               then goJoin ((ws0 ++ [w]).drop ((ws0 ++ [w]).length - overlapWordCount)) [' '] ++ [' ']
               else []) = bufOf sws := by
            rw [if_pos hlt, bufOf, if_neg hswsne]
          have hih := ih sws hrest hswsok
          rw [hfields, hnewbuf]
          constructor
          · rw [List.chain'_cons']
            refine ⟨?_, hih.1⟩
            intro y hy
            obtain ⟨ys, hysne, _, hy2⟩ := hih.2 y (Option.mem_def.mp hy)
            unfold overlapRel tailWords
            rw [hct, fields_goJoin (ws0 ++ [w]) (by simp) hsnoc, ← hsws, hy2,
              goJoin_append sws ys hswsne hysne]
            exact ⟨[' '] ++ goJoin ys [' '], by rw [List.append_assoc]⟩
          · intro c hc
            simp only [List.head?_cons, Option.some.injEq] at hc
            exact ⟨[w], by simp, fun x hx => by
              rcases List.mem_singleton.mp hx with h; subst h; exact hw, by
                rw [← hc, hct]⟩
        · exfalso
          have hlen : utf8Len (bufOf ws0 ++ w ++ [' '])
              = utf8Len (trimSpace (bufOf ws0 ++ w ++ [' '])) + 1 := by
            rw [hct, bufOf_snoc, bufOf, if_neg (by simp : ws0 ++ [w] ≠ [])]
            exact utf8Len_append_space (goJoin (ws0 ++ [w]) [' '])
          rw [hlen] at hclose
          unfold maxChunkSize at hclose
          omega
      · rw [if_neg hclose, bufOf_snoc]
        have hih := ih (ws0 ++ [w]) hrest hsnoc
        constructor
        · exact hih.1
        · intro c hc
          obtain ⟨ys, hysne, hysok, hy2⟩ := hih.2 c hc
          refine ⟨[w] ++ ys, by simp, ?_, by rw [hy2, List.append_assoc]⟩
          intro x hx
          rcases List.mem_append.mp hx with h | h
          · rcases List.mem_singleton.mp h with h; subst h; exact hw
          · exact hysok x h

/-- C5: consecutive chunks emitted by splitIntoChunks from one page overlap:
each next chunk text begins with the trailing (up to 20) words of the
previous chunk. -/
theorem consecutive_chunks_overlap (text : Str) :
    List.Chain' overlapRel (splitIntoChunks text) := by
  have h := splitLoop_chain (fields text) []
    (fun w hw => fields_all_wordOk text w hw) (by simp)
  have hb : bufOf [] = [] := by rfl
  rw [hb] at h
  exact h.1

/-- The characterwise pass of normalize: lowercase, fold accents, keep
[a-z0-9 ] and space out everything else. -/
def mappedStr (s : Str) : Str :=
  ((s.map goToLower).map accentFold).map sanitizeChar

theorem normalize_eq_mapped (s : Str) :
    normalize s = goJoin (fields (mappedStr s)) [' '] := rfl

/-- The per-character normalization composite. -/
def normChar (c : Char) : Char :=
  sanitizeChar (accentFold (goToLower c))

theorem mappedStr_eq (s : Str) : mappedStr s = s.map normChar := by
  unfold mappedStr
  rw [List.map_map, List.map_map]
  rfl

theorem fields_normalize (s : Str) :
    fields (normalize s) = fields (mappedStr s) := by
  rw [normalize_eq_mapped]
  by_cases h : fields (mappedStr s) = []
  · rw [h]; rfl
  · exact fields_goJoin (fields (mappedStr s)) h (fields_all_wordOk (mappedStr s))

theorem fieldsAux_space_append (b : Str) :
    ∀ (a : Str) (acc : List Char),
      fieldsAux (a ++ ' ' :: b) acc = fieldsAux a acc ++ fields b := by
  intro a
  induction a with
  | nil =>
    intro acc
    simp only [List.nil_append, fieldsAux,
      (show goIsSpace ' ' = true by decide), if_true]
    split
    · simp [fields]
    · simp [fields]
  | cons d a ih =>
    intro acc
    simp only [List.cons_append, fieldsAux]
    by_cases hd : goIsSpace d = true
    · rw [if_pos hd, if_pos hd]
      split
      · exact ih []
      · exact congrArg (List.cons acc.reverse) (ih [])
    · rw [if_neg hd, if_neg hd]
      exact ih (d :: acc)

theorem fields_space_append (a b : Str) :
    fields (a ++ [' '] ++ b) = fields a ++ fields b := by
  unfold fields
  rw [List.append_assoc, List.singleton_append]
  exact fieldsAux_space_append b a []

/-- A character the sanitize pass keeps and which is not a space: lowercase
ASCII letter or digit. -/
def keptChar (c : Char) : Prop :=
  (97 ≤ c.toNat ∧ c.toNat ≤ 122) ∨ (48 ≤ c.toNat ∧ c.toNat ≤ 57)

theorem eq_of_toNat_eq (c : Char) (n : Nat) (h : c.toNat = n) :
    c = Char.ofNat n := by
  rw [← h, Char.ofNat_toNat]

theorem sanitizeChar_out (x : Char) :
    keptChar (sanitizeChar x) ∨ sanitizeChar x = ' ' := by
  unfold sanitizeChar
  split
  · rename_i h
    rcases h with h | h | h
    · exact Or.inl (Or.inl h)
    · exact Or.inl (Or.inr h)
    · exact Or.inr (by
        have h2 := eq_of_toNat_eq x 32 h
        rw [h2])
  · exact Or.inr rfl

theorem fieldsAux_char_subset (s : Str) :
    ∀ (acc : List Char) (w : Str), w ∈ fieldsAux s acc →
      ∀ c ∈ w, c ∈ s ∨ c ∈ acc := by
  induction s with
  | nil =>
    intro acc w hw c hc
    simp only [fieldsAux] at hw
    split at hw
    · simp at hw
    · rcases List.mem_singleton.mp hw with h
      subst h
      exact Or.inr (List.mem_reverse.mp hc)
  | cons d rest ih =>
    intro acc w hw c hc
    simp only [fieldsAux] at hw
    by_cases hd : goIsSpace d = true
    · rw [if_pos hd] at hw
      split at hw
      · rcases ih [] w hw c hc with h | h
        · exact Or.inl (List.mem_cons_of_mem d h)
        · simp at h
      · rcases List.mem_cons.mp hw with h | h
        · subst h
          exact Or.inr (List.mem_reverse.mp hc)
        · rcases ih [] w h c hc with h2 | h2
          · exact Or.inl (List.mem_cons_of_mem d h2)
          · simp at h2
    · rw [if_neg hd] at hw
      rcases ih (d :: acc) w hw c hc with h | h
      · exact Or.inl (List.mem_cons_of_mem d h)
      · rcases List.mem_cons.mp h with h2 | h2
        · subst h2
          exact Or.inl (List.mem_cons_self c rest)
        · exact Or.inr h2

theorem fields_char_subset (s : Str) (w : Str) (hw : w ∈ fields s) :
    ∀ c ∈ w, c ∈ s := by
  intro c hc
  rcases fieldsAux_char_subset s [] w hw c hc with h | h
  · exact h
  · simp at h

theorem goJoin_char (ws : List Str) (c : Char) :
    c ∈ goJoin ws [' '] → c = ' ' ∨ ∃ w ∈ ws, c ∈ w := by
  induction ws with
  | nil => intro h; simp [goJoin] at h
  | cons w rest ih =>
    intro h
    cases rest with
    | nil =>
      exact Or.inr ⟨w, List.mem_cons_self w [], h⟩
    | cons w2 rest2 =>
      rw [goJoin_cons w (w2 :: rest2) [' '] (by simp)] at h
      rcases List.mem_append.mp h with h2 | h2
      · rcases List.mem_append.mp h2 with h3 | h3
        · exact Or.inr ⟨w, List.mem_cons_self w (w2 :: rest2), h3⟩
        · rcases List.mem_singleton.mp h3 with h4
          exact Or.inl h4
      · rcases ih h2 with h3 | h3
        · exact Or.inl h3
        · obtain ⟨x, hx1, hx2⟩ := h3
          exact Or.inr ⟨x, List.mem_cons_of_mem w hx1, hx2⟩

theorem norm_token_char (T : Str) (w : Str) (hw : w ∈ fields (normalize T)) :
    ∀ c ∈ w, keptChar c := by
  intro c hc
  have hwok : wordOk w := fields_all_wordOk (normalize T) w hw
  have hcsp : goIsSpace c = false := hwok.2 c hc
  have hcin : c ∈ normalize T := fields_char_subset (normalize T) w hw c hc
  rw [normalize_eq_mapped] at hcin
  rcases goJoin_char (fields (mappedStr T)) c hcin with h | h
  · rw [h] at hcsp
    simp [goIsSpace] at hcsp
  · obtain ⟨w2, hw2, hcw2⟩ := h
    have hcm : c ∈ mappedStr T := fields_char_subset (mappedStr T) w2 hw2 c hcw2
    unfold mappedStr at hcm
    rcases List.mem_map.mp hcm with ⟨x, _, hx2⟩
    rcases sanitizeChar_out x with h2 | h2
    · rw [← hx2]; exact h2
    · rw [hx2] at h2
      rw [h2] at hcsp
      simp [goIsSpace] at hcsp

theorem keptChar_fix (c : Char) (h : keptChar c) :
    sanitizeChar (accentFold (goToLower c)) = c := by
  unfold keptChar at h
  have h1 : goToLower c = c := by
    unfold goToLower
    rw [if_neg (by omega), if_neg (by omega), if_neg (by omega), if_neg (by omega)]
  rw [h1]
  have h2 : accentFold c = c := by
    unfold accentFold
    split_ifs with ha1 ha2 ha3 ha4 ha5 ha6 ha7 ha8 ha9 ha10
    · subst ha1; exact absurd h (by decide)
    · subst ha2; exact absurd h (by decide)
    · subst ha3; exact absurd h (by decide)
    · subst ha4; exact absurd h (by decide)
    · subst ha5; exact absurd h (by decide)
    · subst ha6; exact absurd h (by decide)
    · subst ha7; exact absurd h (by decide)
    · subst ha8; exact absurd h (by decide)
    · subst ha9; exact absurd h (by decide)
    · subst ha10; exact absurd h (by decide)
    · rfl
  rw [h2]
  unfold sanitizeChar
  rw [if_pos (by omega)]

theorem mapped_fix (w : Str) (h : ∀ c ∈ w, keptChar c) : mappedStr w = w := by
  unfold mappedStr
  rw [List.map_map, List.map_map]
  have h2 : ∀ c ∈ w, ((sanitizeChar ∘ accentFold) ∘ goToLower) c = id c := by
    intro c hc
    exact keptChar_fix c (h c hc)
  rw [List.map_congr_left h2, List.map_id]

theorem countOcc_pos_of_mem (w : Str) (ts : List Str) (h : w ∈ ts) :
    0 < countOcc w ts := by
  induction ts with
  | nil => simp at h
  | cons t rest ih =>
    rcases List.mem_cons.mp h with h2 | h2
    · subst h2
      simp [countOcc]
    · unfold countOcc
      have := ih h2
      split <;> omega

theorem matchLoop_append (ct : List Str) (xs ys : List Str) :
    matchLoop ct (xs ++ ys) =
      ((matchLoop ct xs).1 + (matchLoop ct ys).1,
       (matchLoop ct xs).2 + (matchLoop ct ys).2) := by
  induction xs with
  | nil => simp [matchLoop]
  | cons q rest ih =>
    have ih2 : matchLoop ct (rest.append ys)
        = ((matchLoop ct rest).1 + (matchLoop ct ys).1,
           (matchLoop ct rest).2 + (matchLoop ct ys).2) := ih
    simp only [List.cons_append, matchLoop, ih2]
    split
    · simp only [Prod.mk.injEq]
      constructor
      · ring
      · omega
    · split
      · simp only [Prod.mk.injEq]
        constructor
        · ring
        · trivial
      · rfl

theorem matchLoop_fst_nonneg (ct : List Str) (qt : List Str) :
    0 ≤ (matchLoop ct qt).1 := by
  induction qt with
  | nil => simp [matchLoop]
  | cons q rest ih =>
    simp only [matchLoop]
    split
    · rename_i h
      have h1 : (1 : ℚ) ≤ (countOcc q ct : ℚ) := by
        exact_mod_cast h
      have : (0 : ℚ) ≤ 12 * (1 + 1 / 10 * ((countOcc q ct : ℚ) - 1)) := by
        nlinarith
      simp only []
      linarith
    · split
      · simp only []
        linarith
      · exact ih

theorem matchLoop_snd_le_length (ct : List Str) (qt : List Str) :
    (matchLoop ct qt).2 ≤ qt.length := by
  induction qt with
  | nil => simp [matchLoop]
  | cons q rest ih =>
    simp only [matchLoop, List.length_cons]
    split
    · simpa using ih
    · split
      · simp only []
        omega
      · omega

/-- The raw match-plus-coverage component of the relevance scorer: the
per-token term-frequency and partial-match credits of the scoring loop plus
the coverage bonus, before the exact-phrase bonus is added and before the
division by the query-length damping factor; zero when either token list is
empty, as in the scorer. -/
def rawMatchScore (questionWords : List Str) (chunkText : Str) : ℚ :=
  let ct := fields (normalize chunkText)
  let qt := fields (normalize (goJoin questionWords [' ']))
  if ct = [] ∨ qt = [] then 0
  else (matchLoop ct qt).1 + 20 * (((matchLoop ct qt).2 : ℚ) / (qt.length : ℚ))

theorem question_tokens_snoc (Q : List Str) (w : Str)
    (hk : ∀ c ∈ w, keptChar c) (hne : w ≠ []) :
    fields (normalize (goJoin (Q ++ [w]) [' ']))
      = fields (normalize (goJoin Q [' '])) ++ [w] := by
  have hwok : wordOk w := by
    refine ⟨hne, ?_⟩
    intro c hc
    have hkc := hk c hc
    unfold keptChar at hkc
    simp only [goIsSpace, Bool.or_eq_false_iff, Bool.and_eq_false_iff,
      decide_eq_false_iff_not]
    omega
  cases Q with
  | nil =>
    have h1 : goJoin ([] ++ [w]) [' '] = w := rfl
    have h2 : goJoin ([] : List Str) [' '] = [] := rfl
    rw [h1, h2, fields_normalize, fields_normalize, mapped_fix w hk]
    have h3 : mappedStr [] = [] := rfl
    rw [h3, fields_word w hwok]
    rfl
  | cons q Qrest =>
    rw [goJoin_append (q :: Qrest) [w] (by simp) (by simp)]
    have h4 : goJoin [w] [' '] = w := rfl
    rw [h4, fields_normalize, fields_normalize, mappedStr_eq, mappedStr_eq]
    rw [List.map_append, List.map_append]
    have h5 : List.map normChar [' '] = [' '] := by decide
    rw [h5]
    have h7 : List.map normChar w = w := by
      rw [← mappedStr_eq]
      exact mapped_fix w hk
    rw [h7, fields_space_append, fields_word w hwok]

/-- C6 (amended): appending a query token that exactly matches a chunk token
never decreases the raw match-plus-coverage score (the scorer total before
the exact-phrase bonus and before the query-length damping); the full
normalized score can decrease, as the counterexample shows. -/
theorem raw_match_score_monotone (Q : List Str) (T : Str) (w : Str)
    (hw : w ∈ fields (normalize T)) :
    rawMatchScore Q T ≤ rawMatchScore (Q ++ [w]) T := by
  have hk : ∀ c ∈ w, keptChar c := norm_token_char T w hw
  have hne : w ≠ [] := (fields_all_wordOk (normalize T) w hw).1
  have hct : fields (normalize T) ≠ [] := by
    intro h; rw [h] at hw; simp at hw
  have hsnoc := question_tokens_snoc Q w hk hne
  unfold rawMatchScore
  rw [hsnoc]
  have htf : 0 < countOcc w (fields (normalize T)) := countOcc_pos_of_mem w _ hw
  have hcontrib : matchLoop (fields (normalize T)) [w]
      = (12 * (1 + 1 / 10 * ((countOcc w (fields (normalize T)) : ℚ) - 1)), 1) := by
    simp [matchLoop, htf]
  by_cases hqt : fields (normalize (goJoin Q [' '])) = []
  · rw [hqt]
    rw [if_pos (Or.inr rfl)]
    rw [if_neg (by simp [hct])]
    simp only [List.nil_append]
    rw [hcontrib]
    have h1 : (1 : ℚ) ≤ (countOcc w (fields (normalize T)) : ℚ) := by
      exact_mod_cast htf
    simp only [List.length_singleton]
    have h2 : (0:ℚ) ≤ 12 * (1 + 1 / 10 * ((countOcc w (fields (normalize T)) : ℚ) - 1)) := by
      nlinarith
    norm_num
    linarith
  · rw [if_neg (by simp [hct, hqt]), if_neg (by simp [hct])]
    rw [matchLoop_append (fields (normalize T)) (fields (normalize (goJoin Q [' ']))) [w]]
    rw [hcontrib]
    set ct := fields (normalize T)
    set qt := fields (normalize (goJoin Q [' ']))
    set A := (matchLoop ct qt).1 with hA
    set c := (matchLoop ct qt).2 with hc
    have hcle : c ≤ qt.length := matchLoop_snd_le_length ct qt
    have hnpos : 0 < qt.length := List.length_pos.mpr hqt
    have h1 : (1 : ℚ) ≤ (countOcc w ct : ℚ) := by exact_mod_cast htf
    have h2 : (0:ℚ) ≤ 12 * (1 + 1 / 10 * ((countOcc w ct : ℚ) - 1)) := by nlinarith
    simp only [List.length_append, List.length_singleton]
    have hnq : (0:ℚ) < (qt.length : ℚ) := by exact_mod_cast hnpos
    have hnq1 : (0:ℚ) < ((qt.length : ℚ) + 1) := by linarith
    have hcov : ((c : ℚ) / (qt.length : ℚ)) ≤ (((c : ℚ) + 1) / ((qt.length : ℚ) + 1)) := by
      rw [div_le_div_iff₀ hnq hnq1]
      have hcq : (c : ℚ) ≤ (qt.length : ℚ) := by exact_mod_cast hcle
      nlinarith
    push_cast
    nlinarith [hcov]

/-- C6 (witness): for the query [abcd] against chunk text abcd efgh, the
token efgh matches a chunk token exactly and appending it does not decrease
the raw match-plus-coverage score. -/
theorem raw_match_score_monotone_witness :
    "efgh".data ∈ fields (normalize "abcd efgh".data)
      ∧ rawMatchScore ["abcd".data] "abcd efgh".data
          ≤ rawMatchScore ["abcd".data, "efgh".data] "abcd efgh".data :=
  ⟨by decide, raw_match_score_monotone ["abcd".data] "abcd efgh".data "efgh".data
    (by decide)⟩

theorem score_eval (QW : List Str) (T : Str) (ct qt : List Str)
    (h1 : fields (normalize T) = ct)
    (h2 : fields (normalize (goJoin QW [' '])) = qt)
    (hct : ct ≠ []) (hqt : qt ≠ []) :
    calculateRelevanceScore QW T =
      ((if containsSub (normalize T) (normalize (goJoin QW [' '])) = true
            ∧ 8 ≤ (normalize (goJoin QW [' '])).length then (40 : ℚ) else 0)
        + (matchLoop ct qt).1 + 20 * (((matchLoop ct qt).2 : ℚ) / (qt.length : ℚ)))
        / (1 + (1 / 20) * (qt.length : ℚ)) := by
  simp only [calculateRelevanceScore, h1, h2]
  rw [if_neg (by simp [hct, hqt])]

/-- C6 (counterexample): appending the exactly-matching token abcd to the
query [abcd, efgh] strictly decreases CalculateRelevanceScore on the chunk
abcd efgh, because the 40-point exact-phrase bonus is lost and the
query-length damping grows. -/
theorem adding_matching_token_can_decrease_score :
    "abcd".data ∈ fields (normalize "abcd efgh".data)
      ∧ calculateRelevanceScore ["abcd".data, "efgh".data, "abcd".data] "abcd efgh".data
          < calculateRelevanceScore ["abcd".data, "efgh".data] "abcd efgh".data := by
  refine ⟨by decide, ?_⟩
  have e2 := score_eval ["abcd".data, "efgh".data] "abcd efgh".data
    ["abcd".data, "efgh".data] ["abcd".data, "efgh".data]
    (by decide) (by decide) (by decide) (by decide)
  have e3 := score_eval ["abcd".data, "efgh".data, "abcd".data] "abcd efgh".data
    ["abcd".data, "efgh".data] ["abcd".data, "efgh".data, "abcd".data]
    (by decide) (by decide) (by decide) (by decide)
  have c1 : countOcc "abcd".data ["abcd".data, "efgh".data] = 1 := by decide
  have c2 : countOcc "efgh".data ["abcd".data, "efgh".data] = 1 := by decide
  have m2 : matchLoop ["abcd".data, "efgh".data] ["abcd".data, "efgh".data]
      = (24, 2) := by
    simp only [matchLoop, c1, c2]
    norm_num
  have m3 : matchLoop ["abcd".data, "efgh".data]
      ["abcd".data, "efgh".data, "abcd".data] = (36, 3) := by
    simp only [matchLoop, c1, c2]
    norm_num
  have hcon2 : containsSub (normalize "abcd efgh".data)
      (normalize (goJoin ["abcd".data, "efgh".data] [' '])) = true := by decide
  have hlen2 : (normalize (goJoin ["abcd".data, "efgh".data] [' '])).length = 9 := by
    decide
  have hcon3 : containsSub (normalize "abcd efgh".data)
      (normalize (goJoin ["abcd".data, "efgh".data, "abcd".data] [' '])) = false := by
    decide
  rw [e2, e3, m2, m3, hcon2, hlen2, hcon3]
  norm_num

/-- The fields of a document row read by the query path (id, original file
name and ingestion status; the remaining columns of the Go struct are not
consulted by Query). -/
structure DocumentRecord where
  id : Str
  originalFilename : Str
  status : Str
deriving DecidableEq

/-- The fields of a chunk row read by the query path (id and chunk text). -/
structure ChunkRecord where
  id : Str
  chunkText : Str
deriving DecidableEq

/-- SimpleRAGResponse of simple_rag_service.go, with the float64 confidence
as a rational. -/
structure SimpleRAGResponse where
  answer : Str
  sources : List Str
  confidence : ℚ
  context : Str
deriving DecidableEq

/-- The configuration consulted by Query: the response language. -/
structure Config where
  appLanguage : Str
deriving DecidableEq

/-- The persistent state the query reads: the document table in the order
GetDocuments returns it (created_at descending), each document paired with
its chunk rows in chunk_index order.  Database reads are modelled as
error-free; the store-audit-record side effect has no bearing on the
returned response and is not modelled. -/
abbrev Corpus := List (DocumentRecord × List ChunkRecord)

def completedStatus : Str := "completed".data

def faLang : Str := "fa".data

/-- GetDocuments(50, 0): the first 50 documents. -/
def docsOf (corpus : Corpus) : Corpus := corpus.take 50

/-- questionWords := strings.Fields(strings.ToLower(question)). -/
def questionWordsOf (question : Str) : List Str := fields (toLowerStr question)

/-- The chunk-gathering loop of Query: for every completed document among the
fetched ones, append GetChunksByDocument(id, 50, 0), i.e. its first 50
chunks. -/
def allChunksOf (corpus : Corpus) : List ChunkRecord :=
  ((docsOf corpus).filter (fun dc => decide (dc.1.status = completedStatus))).flatMap
    (fun dc => dc.2.take 50)

/-- The scoring loop: every gathered chunk is paired with its relevance score
against the lowercased chunk text. -/
def scoredOf (corpus : Corpus) (question : Str) : List (ChunkRecord × ℚ) :=
  (allChunksOf corpus).map
    (fun c => (c, calculateRelevanceScore (questionWordsOf question) (toLowerStr c.chunkText)))

/-- The sort.Slice descending sort on scores, modelled as an insertion sort
by the nonincreasing-score relation (a particular descending permutation;
sort.Slice guarantees no specific order on ties). -/
def sortScored (l : List (ChunkRecord × ℚ)) : List (ChunkRecord × ℚ) :=
  List.insertionSort (fun a b => b.2 ≤ a.2) l

/-- The top-chunk selection of the primary query path: the first 5 of the
sorted list when more than 5 exist, otherwise the whole list. -/
def topChunksOf (corpus : Corpus) (question : Str) : List (ChunkRecord × ℚ) :=
  let sorted := sortScored (scoredOf corpus question)
  if 5 < sorted.length then sorted.take 5 else sorted

/-- The relevance floor of the primary context-building loop (0.2). -/
def relevanceFloorPrimary : ℚ := 1 / 5

/-- The relevance floor of the source-listing loop (0.1). -/
def relevanceFloorSources : ℚ := 1 / 10

/-- The top chunks that pass the primary relevance floor. -/
def relevantTopChunksOf (corpus : Corpus) (question : Str) : List (ChunkRecord × ℚ) :=
  (topChunksOf corpus question).filter (fun sc => decide (relevanceFloorPrimary < sc.2))

/-- The context parts: the texts of the top chunks above the floor. -/
def contextPartsOf (corpus : Corpus) (question : Str) : List Str :=
  (relevantTopChunksOf corpus question).map (fun sc => sc.1.chunkText)

/-- The best score tracked while building the context. -/
def bestScoreOf (corpus : Corpus) (question : Str) : ℚ :=
  (relevantTopChunksOf corpus question).foldl
    (fun best sc => if best < sc.2 then sc.2 else best) 0

/-- context := strings.Join(contextParts, blank line). -/
def contextOf (corpus : Corpus) (question : Str) : Str :=
  goJoin (contextPartsOf corpus question) "\n\n".data

def enPromptA : Str :=
  "Answer this question using ONLY the information provided in the context below. Give a direct, specific answer.\n\nCONTEXT:\n".data

def enPromptB : Str := "\n\nQUESTION: ".data

def enPromptC : Str := "\n\nANSWER:".data

def faPromptA : Str :=
  "فقط با استفاده از اطلاعات «متن زمینه» زیر پاسخ بده. پاسخ باید دقیق، واضح و به زبان فارسی باشد. اگر پاسخ در متن نبود، فقط بگو: «اطلاعات کافی در متن موجود نیست».\n\nمتن زمینه:\n".data

def faPromptB : Str := "\n\nپرسش: ".data

def faPromptC : Str := "\n\nپاسخ:".data

/-- The grounding prompt, per the configured language. -/
def promptOf (cfg : Config) (corpus : Corpus) (question : Str) : Str :=
  if cfg.appLanguage = faLang then
    faPromptA ++ contextOf corpus question ++ faPromptB ++ question ++ faPromptC
  else
    enPromptA ++ contextOf corpus question ++ enPromptB ++ question ++ enPromptC

def markerNoInfo1 : Str := "i don't have that information".data

def markerNoInfo2 : Str := "i don't have enough information".data

def markerNoInfo3 : Str := "not found in the provided documents".data

def markerNoInfo4 : Str := "not available in the context".data

def markerNoInfoFa : Str := "اطلاعات کافی در متن موجود نیست".data

/-- The post-generation insufficient-knowledge scan: the four English markers
against the lowercased answer, plus the Persian marker against the raw
answer. -/
def isMissingAnswer (answer : Str) : Bool :=
  containsSub (toLowerStr answer) markerNoInfo1
    || containsSub (toLowerStr answer) markerNoInfo2
    || containsSub (toLowerStr answer) markerNoInfo3
    || containsSub (toLowerStr answer) markerNoInfo4
    || containsSub answer markerNoInfoFa

def noDocsAnswer : Str :=
  "I don't have any documents in my knowledge base yet. Please upload some PDF files first.".data

def noContentAnswer : Str :=
  "I don't have any processed content in my knowledge base yet. Please upload some PDF files first.".data

def noRelevantAnswer : Str :=
  "I don't have enough relevant information to answer that question accurately.".data

/-- The locale-appropriate insufficient-information override message. -/
def missingInfoAnswer (cfg : Config) : Str :=
  if cfg.appLanguage = faLang then "این اطلاعات در اسناد موجود نیست.".data
  else "I don't have that information in the provided documents.".data

/-- The per-document maximum chunk score of getTopRelevantSources, over the
first 50 chunks GetChunksByDocument returns. -/
def maxChunkScoreOf (questionWords : List Str) (chunks : List ChunkRecord) : ℚ :=
  (chunks.take 50).foldl
    (fun best c =>
      let s := calculateRelevanceScore questionWords (toLowerStr c.chunkText)
      if best < s then s else best) 0

/-- The source-scoring loop: completed documents whose maximum chunk score
exceeds the 0.1 floor, paired with that score. -/
def sourceScoresOf (questionWords : List Str) (documents : Corpus) : List (Str × ℚ) :=
  (documents.filter (fun dc => decide (dc.1.status = completedStatus))).filterMap
    (fun dc =>
      let maxScore := maxChunkScoreOf questionWords dc.2
      if relevanceFloorSources < maxScore then some (dc.1.originalFilename, maxScore)
      else none)

/-- getTopRelevantSources: sort the source scores descending, take the first
`limit`. -/
def getTopRelevantSources (questionWords : List Str) (documents : Corpus)
    (limit : Nat) : List (Str × ℚ) :=
  let sorted := List.insertionSort (fun a b : Str × ℚ => b.2 ≤ a.2)
    (sourceScoresOf questionWords documents)
  if limit < sorted.length then sorted.take limit else sorted

/-- formatSourceWithDocumentID: prepend the id of the first document whose
original filename matches, joined with a pipe; empty and unmatched sources
pass through. -/
def formatSourceWithDocumentID (source : Str) (documents : Corpus) : Str :=
  if source = [] then []
  else
    match documents.find? (fun dc => decide (dc.1.originalFilename = source)) with
    | some dc => dc.1.id ++ '|' :: source
    | none => source

/-- The source list of a successful answer: the top 5 relevant sources,
formatted with their document ids. -/
def sourcesOf (corpus : Corpus) (question : Str) : List Str :=
  (getTopRelevantSources (questionWordsOf question) (docsOf corpus) 5).map
    (fun fs => formatSourceWithDocumentID fs.1 (docsOf corpus))

/-- The confidence: the best context score, clamped at 1. -/
def confidenceOf (corpus : Corpus) (question : Str) : ℚ :=
  if 1 < bestScoreOf corpus question then 1 else bestScoreOf corpus question

/-- Query of simple_rag_service.go: the generation backend is the function
`llm` (None models a GenerateText error, which Query propagates).  The three
early exits (no documents, no chunks, nothing above the relevance floor)
return canned zero-confidence responses; otherwise the grounding prompt is
sent to the backend, the insufficient-knowledge markers are scanned, and the
answer is returned with sources and clamped confidence. -/
def queryGo (cfg : Config) (llm : Str → Option Str) (corpus : Corpus)
    (question : Str) : Option SimpleRAGResponse :=
  if docsOf corpus = [] then some ⟨noDocsAnswer, [], 0, []⟩
  else if allChunksOf corpus = [] then some ⟨noContentAnswer, [], 0, []⟩
  else if contextPartsOf corpus question = [] then
    some ⟨noRelevantAnswer, [], 0, []⟩
  else
    match llm (promptOf cfg corpus question) with
    | none => none
    | some answer =>
      if isMissingAnswer answer = true then
        some ⟨missingInfoAnswer cfg, [], 0, contextOf corpus question⟩
      else
        some ⟨answer, sourcesOf corpus question, confidenceOf corpus question,
          contextOf corpus question⟩

/-- C2 (amended): the primary query path selects exactly the top 5 chunks of
the descending sort (or all chunks when 5 or fewer exist) as the candidates
from which the retrieval context is built: the selection equals the first
five of a descending-sorted permutation of the scored chunks. -/
theorem primary_top_selection_is_top_five (corpus : Corpus) (question : Str) :
    topChunksOf corpus question = (sortScored (scoredOf corpus question)).take 5
      ∧ List.Sorted (fun a b : ChunkRecord × ℚ => b.2 ≤ a.2)
          (sortScored (scoredOf corpus question))
      ∧ List.Perm (sortScored (scoredOf corpus question))
          (scoredOf corpus question) := by
  refine ⟨?_, ?_, List.perm_insertionSort _ _⟩
  · simp only [topChunksOf]
    split
    · rfl
    · rename_i h
      rw [List.take_of_length_le (by omega)]
  · unfold sortScored
    haveI h1 : IsTotal (ChunkRecord × ℚ) (fun a b => b.2 ≤ a.2) :=
      ⟨fun a b => le_total b.2 a.2⟩
    haveI h2 : IsTrans (ChunkRecord × ℚ) (fun a b => b.2 ≤ a.2) :=
      ⟨fun _ _ _ hab hbc => le_trans hbc hab⟩
    exact List.sorted_insertionSort _ _

def c2exCorpus : Corpus :=
  [(⟨"d1".data, "f1".data, "completed".data⟩,
    [⟨"c1".data, "alpha".data⟩, ⟨"c2".data, "beta".data⟩,
     ⟨"c3".data, "gamma".data⟩, ⟨"c4".data, "delta".data⟩])]

/-- C2 (counterexample): on a corpus of 4 scored chunks the primary path
selects all 4 candidates, not exactly the top 3 the claim predicts for a
corpus with at least 3 chunks. -/
theorem primary_top_selection_not_three :
    3 ≤ (scoredOf c2exCorpus "q".data).length
      ∧ (topChunksOf c2exCorpus "q".data).length = 4
      ∧ (topChunksOf c2exCorpus "q".data).length ≠ 3 := by
  have hlen : (scoredOf c2exCorpus "q".data).length = 4 := by
    unfold scoredOf
    rw [List.length_map]
    decide
  have hs : (sortScored (scoredOf c2exCorpus "q".data)).length = 4 := by
    unfold sortScored
    rw [(List.perm_insertionSort _ _).length_eq]
    exact hlen
  have htop : (topChunksOf c2exCorpus "q".data).length = 4 := by
    simp only [topChunksOf]
    rw [if_neg (by rw [hs]; norm_num)]
    exact hs
  exact ⟨by omega, htop, by omega⟩

/-- C9 (amended): every chunk among the first 50 chunks of a completed
document among the first 50 documents participates in the scored chunk
list of the query path. -/
theorem chunks_within_pagination_participate (corpus : Corpus)
    (d : DocumentRecord) (chs : List ChunkRecord) (c : ChunkRecord)
    (hd : (d, chs) ∈ docsOf corpus) (hst : d.status = completedStatus)
    (hc : c ∈ chs.take 50) :
    c ∈ allChunksOf corpus := by
  unfold allChunksOf
  rw [List.mem_flatMap]
  refine ⟨(d, chs), ?_, hc⟩
  rw [List.mem_filter]
  exact ⟨hd, by simp [hst]⟩

/-- C9 (witness): in a one-document corpus the single chunk of the completed
document is among the scored chunks. -/
theorem chunks_within_pagination_participate_witness :
    (⟨"c1".data, "text".data⟩ : ChunkRecord)
      ∈ allChunksOf [(⟨"d1".data, "f1".data, "completed".data⟩,
          [⟨"c1".data, "text".data⟩])] :=
  chunks_within_pagination_participate _
    ⟨"d1".data, "f1".data, "completed".data⟩ [⟨"c1".data, "text".data⟩]
    ⟨"c1".data, "text".data⟩ (by decide) (by decide) (by decide)

def c9exChunks : List ChunkRecord :=
  (List.range 51).map (fun i => ⟨List.replicate i 'a', "text".data⟩)

def c9exCorpus : Corpus :=
  [(⟨"d1".data, "f1".data, "completed".data⟩, c9exChunks)]

/-- C9 (counterexample): a completed document with 51 chunks: its 51st chunk
(index 50) belongs to the document but is excluded from the scored chunk
list by the GetChunksByDocument(id, 50, 0) pagination limit. -/
theorem chunk_beyond_pagination_excluded :
    (⟨"d1".data, "f1".data, "completed".data⟩ : DocumentRecord).status
        = completedStatus
      ∧ (⟨"d1".data, "f1".data, "completed".data⟩, c9exChunks) ∈ c9exCorpus
      ∧ (⟨List.replicate 50 'a', "text".data⟩ : ChunkRecord) ∈ c9exChunks
      ∧ (⟨List.replicate 50 'a', "text".data⟩ : ChunkRecord) ∉ allChunksOf c9exCorpus := by
  refine ⟨by decide, by decide, by decide, by decide⟩

theorem foldl_best_ge (l : List (ChunkRecord × ℚ)) :
    ∀ b : ℚ, b ≤ l.foldl (fun best sc => if best < sc.2 then sc.2 else best) b := by
  induction l with
  | nil => intro b; simp
  | cons x rest ih =>
    intro b
    simp only [List.foldl_cons]
    refine le_trans ?_ (ih (if b < x.2 then x.2 else b))
    split
    · rename_i h
      exact le_of_lt h
    · exact le_refl b

/-- C8: every response Query returns, across all terminal states, carries a
confidence in the closed interval [0, 1]. -/
theorem query_confidence_in_unit_interval (cfg : Config) (llm : Str → Option Str)
    (corpus : Corpus) (question : Str) (r : SimpleRAGResponse)
    (h : queryGo cfg llm corpus question = some r) :
    0 ≤ r.confidence ∧ r.confidence ≤ 1 := by
  unfold queryGo at h
  split at h
  · cases h
    constructor <;> norm_num
  · split at h
    · cases h
      constructor <;> norm_num
    · split at h
      · cases h
        constructor <;> norm_num
      · split at h
        · exact absurd h (by simp)
        · split at h
          · cases h
            constructor <;> norm_num
          · cases h
            have h0 : 0 ≤ bestScoreOf corpus question := by
              unfold bestScoreOf
              exact foldl_best_ge (relevantTopChunksOf corpus question) 0
            show 0 ≤ confidenceOf corpus question ∧ confidenceOf corpus question ≤ 1
            unfold confidenceOf
            split
            · constructor <;> norm_num
            · rename_i hle
              exact ⟨h0, le_of_not_lt hle⟩

/-- C8 (witness): on an empty corpus the query returns the canned no-documents
response, whose confidence lies in [0, 1]. -/
theorem query_confidence_in_unit_interval_witness :
    queryGo ⟨"en".data⟩ (fun _ => none) [] "q".data
        = some ⟨noDocsAnswer, [], 0, []⟩
      ∧ 0 ≤ (⟨noDocsAnswer, [], 0, []⟩ : SimpleRAGResponse).confidence
      ∧ (⟨noDocsAnswer, [], 0, []⟩ : SimpleRAGResponse).confidence ≤ 1 :=
  ⟨rfl, query_confidence_in_unit_interval ⟨"en".data⟩ (fun _ => none) [] "q".data
    ⟨noDocsAnswer, [], 0, []⟩ rfl⟩

/-- C3 (amended): when the primary pass selects zero chunks above its
relevance floor (and documents and chunks exist), Query terminates with the
canned no-relevant-information answer — confidence 0, no sources, empty
context — for every generation backend, without invoking any fallback
retrieval; the top-8/0.1-floor/cross-lingual fallback exists only in the
searchAllDocuments method, which no caller reaches. -/
theorem zero_context_primary_terminates_canned (cfg : Config)
    (llm : Str → Option Str) (corpus : Corpus) (question : Str)
    (h1 : docsOf corpus ≠ []) (h2 : allChunksOf corpus ≠ [])
    (h3 : contextPartsOf corpus question = []) :
    queryGo cfg llm corpus question = some ⟨noRelevantAnswer, [], 0, []⟩ := by
  unfold queryGo
  rw [if_neg h1, if_neg h2, if_pos h3]

/-- Whether a character is an ASCII letter or digit. -/
def isAsciiAlnumChar (c : Char) : Bool :=
  decide ((97 ≤ c.toNat ∧ c.toNat ≤ 122) ∨ (65 ≤ c.toNat ∧ c.toNat ≤ 90)
    ∨ (48 ≤ c.toNat ∧ c.toNat ≤ 57))

/-- The codepoints of the twenty characters the scorer accent-folds:
the ten lowercase table entries and their uppercase forms, which ToLower
maps onto them. -/
def foldableCodes : List Nat :=
  [243, 225, 233, 237, 250, 241, 231, 252, 246, 228,
   211, 193, 201, 205, 218, 209, 199, 220, 214, 196]

theorem toNat_ofNat_small (n : Nat) (h : n < 55296) : (Char.ofNat n).toNat = n := by
  have hv : n.isValidChar := Or.inl h
  rw [Char.ofNat, dif_pos hv]
  simp [Char.ofNatAux, Char.toNat, UInt32.toNat]

theorem accentFold_eq_self (x : Char) (h : x.toNat ∉ foldableCodes) :
    accentFold x = x := by
  have h2 : x.toNat ≠ 243 ∧ x.toNat ≠ 225 ∧ x.toNat ≠ 233 ∧ x.toNat ≠ 237
      ∧ x.toNat ≠ 250 ∧ x.toNat ≠ 241 ∧ x.toNat ≠ 231 ∧ x.toNat ≠ 252
      ∧ x.toNat ≠ 246 ∧ x.toNat ≠ 228 := by
    simp [foldableCodes] at h
    omega
  obtain ⟨n1, n2, n3, n4, n5, n6, n7, n8, n9, n10⟩ := h2
  have hne : ∀ (v : Nat) (d : Char), d.toNat = v → x.toNat ≠ v → x ≠ d := by
    intro v d hd hnev he
    exact hnev (by rw [he]; exact hd)
  unfold accentFold
  rw [if_neg (hne 243 'ó' (by decide) n1), if_neg (hne 225 'á' (by decide) n2),
    if_neg (hne 233 'é' (by decide) n3), if_neg (hne 237 'í' (by decide) n4),
    if_neg (hne 250 'ú' (by decide) n5), if_neg (hne 241 'ñ' (by decide) n6),
    if_neg (hne 231 'ç' (by decide) n7), if_neg (hne 252 'ü' (by decide) n8),
    if_neg (hne 246 'ö' (by decide) n9), if_neg (hne 228 'ä' (by decide) n10)]

theorem normChar_dead (c : Char) (h1 : isAsciiAlnumChar c = false)
    (h2 : c.toNat ∉ foldableCodes) (h3 : c.toNat ≠ 304) (h4 : c.toNat ≠ 8490) :
    normChar c = ' ' := by
  have h1p : ¬((97 ≤ c.toNat ∧ c.toNat ≤ 122) ∨ (65 ≤ c.toNat ∧ c.toNat ≤ 90)
      ∨ (48 ≤ c.toNat ∧ c.toNat ≤ 57)) := by
    simpa [isAsciiAlnumChar] using h1
  have h2p : c.toNat ≠ 243 ∧ c.toNat ≠ 225 ∧ c.toNat ≠ 233 ∧ c.toNat ≠ 237
      ∧ c.toNat ≠ 250 ∧ c.toNat ≠ 241 ∧ c.toNat ≠ 231 ∧ c.toNat ≠ 252
      ∧ c.toNat ≠ 246 ∧ c.toNat ≠ 228 ∧ c.toNat ≠ 211 ∧ c.toNat ≠ 193
      ∧ c.toNat ≠ 201 ∧ c.toNat ≠ 205 ∧ c.toNat ≠ 218 ∧ c.toNat ≠ 209
      ∧ c.toNat ≠ 199 ∧ c.toNat ≠ 220 ∧ c.toNat ≠ 214 ∧ c.toNat ≠ 196 := by
    have h2c := h2
    simp [foldableCodes] at h2c
    omega
  unfold normChar goToLower
  split_ifs with hA hB
  · exact absurd (Or.inr (Or.inl hA)) h1p
  · have hx : (Char.ofNat (c.toNat + 32)).toNat = c.toNat + 32 :=
      toNat_ofNat_small _ (by omega)
    have hfold : accentFold (Char.ofNat (c.toNat + 32)) = Char.ofNat (c.toNat + 32) := by
      apply accentFold_eq_self
      rw [hx]
      intro hmem
      simp [foldableCodes] at hmem
      omega
    rw [hfold]
    unfold sanitizeChar
    rw [if_neg (by simp only [hx]; omega)]
  · have hfold : accentFold c = c := accentFold_eq_self c h2
    rw [hfold]
    unfold sanitizeChar
    by_cases h32 : c.toNat = 32
    · rw [if_pos (Or.inr (Or.inr h32))]
      have hc := eq_of_toNat_eq c 32 h32
      rw [hc]
    · rw [if_neg (by omega)]

theorem goToLower_dead (c : Char) (h1 : isAsciiAlnumChar c = false)
    (h2 : c.toNat ∉ foldableCodes) (h3 : c.toNat ≠ 304) (h4 : c.toNat ≠ 8490) :
    isAsciiAlnumChar (goToLower c) = false ∧ (goToLower c).toNat ∉ foldableCodes
      ∧ (goToLower c).toNat ≠ 304 ∧ (goToLower c).toNat ≠ 8490 := by
  have h1p : ¬((97 ≤ c.toNat ∧ c.toNat ≤ 122) ∨ (65 ≤ c.toNat ∧ c.toNat ≤ 90)
      ∨ (48 ≤ c.toNat ∧ c.toNat ≤ 57)) := by
    simpa [isAsciiAlnumChar] using h1
  have h2p : c.toNat ≠ 243 ∧ c.toNat ≠ 225 ∧ c.toNat ≠ 233 ∧ c.toNat ≠ 237
      ∧ c.toNat ≠ 250 ∧ c.toNat ≠ 241 ∧ c.toNat ≠ 231 ∧ c.toNat ≠ 252
      ∧ c.toNat ≠ 246 ∧ c.toNat ≠ 228 ∧ c.toNat ≠ 211 ∧ c.toNat ≠ 193
      ∧ c.toNat ≠ 201 ∧ c.toNat ≠ 205 ∧ c.toNat ≠ 218 ∧ c.toNat ≠ 209
      ∧ c.toNat ≠ 199 ∧ c.toNat ≠ 220 ∧ c.toNat ≠ 214 ∧ c.toNat ≠ 196 := by
    have h2c := h2
    simp [foldableCodes] at h2c
    omega
  unfold goToLower
  split_ifs with hA hB
  · exact absurd (Or.inr (Or.inl hA)) h1p
  · have hx : (Char.ofNat (c.toNat + 32)).toNat = c.toNat + 32 :=
      toNat_ofNat_small _ (by omega)
    refine ⟨?_, ?_, ?_, ?_⟩
    · simp only [isAsciiAlnumChar, hx, decide_eq_false_iff_not]
      omega
    · rw [hx]
      intro hmem
      simp [foldableCodes] at hmem
      omega
    · rw [hx]; omega
    · rw [hx]; omega
  · exact ⟨h1, h2, h3, h4⟩

theorem fieldsAux_all_space (t : Str) (h : ∀ c ∈ t, goIsSpace c = true) :
    fieldsAux t [] = [] := by
  induction t with
  | nil => rfl
  | cons c rest ih =>
    have hc := h c (List.mem_cons_self c rest)
    unfold fieldsAux
    rw [if_pos hc, if_pos rfl]
    exact ih (fun d hd => h d (List.mem_cons_of_mem c hd))

theorem question_tokens_nil_of_dead (question : Str)
    (h : ∀ c ∈ question, isAsciiAlnumChar c = false ∧ c.toNat ∉ foldableCodes
      ∧ c.toNat ≠ 304 ∧ c.toNat ≠ 8490) :
    fields (normalize (goJoin (questionWordsOf question) [' '])) = [] := by
  rw [fields_normalize, mappedStr_eq]
  unfold fields
  apply fieldsAux_all_space
  intro c hc
  rcases List.mem_map.mp hc with ⟨x, hx1, hx2⟩
  have hxdead : normChar x = ' ' := by
    rcases goJoin_char (questionWordsOf question) x hx1 with hsp | ⟨w, hw1, hw2⟩
    · rw [hsp]; decide
    · have hxin : x ∈ toLowerStr question :=
        fields_char_subset (toLowerStr question) w hw1 x hw2
      rcases List.mem_map.mp hxin with ⟨c0, hc01, hc02⟩
      have hd := h c0 hc01
      have hlow := goToLower_dead c0 hd.1 hd.2.1 hd.2.2.1 hd.2.2.2
      rw [← hc02]
      exact normChar_dead (goToLower c0) hlow.1 hlow.2.1 hlow.2.2.1 hlow.2.2.2
  rw [← hx2, hxdead]
  decide

/-- Shared fact: a question all of whose characters are outside ASCII
alphanumerics, the accent-fold table and the two ASCII-lowering code points
U+0130 and U+212A scores 0 against every chunk text, because its normalized
token list is empty. -/
theorem score_zero_of_dead_question (question : Str) (T : Str)
    (h : ∀ c ∈ question, isAsciiAlnumChar c = false ∧ c.toNat ∉ foldableCodes
      ∧ c.toNat ≠ 304 ∧ c.toNat ≠ 8490) :
    calculateRelevanceScore (questionWordsOf question) T = 0 := by
  have hqt := question_tokens_nil_of_dead question h
  simp only [calculateRelevanceScore, hqt]
  simp

/-- Shared fact: when every chunk scores 0 against the question, the primary
context-part list is empty (nothing clears the 0.2 floor). -/
theorem contextParts_nil_of_zero_scores (corpus : Corpus) (question : Str)
    (h : ∀ T : Str, calculateRelevanceScore (questionWordsOf question) T = 0) :
    contextPartsOf corpus question = [] := by
  have hfil : relevantTopChunksOf corpus question = [] := by
    unfold relevantTopChunksOf
    rw [List.filter_eq_nil_iff]
    intro sc hsc
    have h1 : sc ∈ sortScored (scoredOf corpus question) := by
      simp only [topChunksOf] at hsc
      rcases Classical.em (5 < (sortScored (scoredOf corpus question)).length) with hh | hh
      · rw [if_pos hh] at hsc
        exact List.take_subset 5 _ hsc
      · rw [if_neg hh] at hsc
        exact hsc
    have h2 : sc ∈ scoredOf corpus question := by
      unfold sortScored at h1
      exact (List.perm_insertionSort _ _).mem_iff.mp h1
    rcases List.mem_map.mp h2 with ⟨c, _, hc2⟩
    rw [← hc2]
    simp only [decide_eq_true_eq, not_lt]
    rw [h (toLowerStr c.chunkText)]
    unfold relevanceFloorPrimary
    norm_num
  unfold contextPartsOf
  rw [hfil]
  rfl

def c3exCorpus : Corpus :=
  [(⟨"d1".data, "f1".data, "completed".data⟩, [⟨"c1".data, "alpha beta".data⟩])]

/-- C3 (counterexample): on a corpus whose single completed chunk scores zero
against a punctuation-only question, the primary pass selects zero chunks
above its floor, and Query terminates with the canned no-relevant-information
answer rather than re-running retrieval through the secondary fallback. -/
theorem zero_context_returns_canned_cex :
    queryGo ⟨"en".data⟩ (fun _ => some "whatever".data) c3exCorpus "...".data
      = some ⟨noRelevantAnswer, [], 0, []⟩ := by
  have hz : ∀ T : Str, calculateRelevanceScore (questionWordsOf "...".data) T = 0 :=
    fun T => score_zero_of_dead_question "...".data T (by decide)
  have hcp := contextParts_nil_of_zero_scores c3exCorpus "...".data hz
  unfold queryGo
  rw [if_neg (by decide), if_neg (by decide), if_pos hcp]

/-- C3 (witness): a concrete zero-relevance query on a nonempty corpus takes
the canned early exit. -/
theorem zero_context_primary_terminates_canned_witness :
    queryGo ⟨"en".data⟩ (fun _ => none) c3exCorpus "???".data
      = some ⟨noRelevantAnswer, [], 0, []⟩ :=
  zero_context_primary_terminates_canned ⟨"en".data⟩ (fun _ => none) c3exCorpus
    "???".data (by decide) (by decide)
    (contextParts_nil_of_zero_scores c3exCorpus "???".data
      (fun T => score_zero_of_dead_question "???".data T (by decide)))

/-- C10 (amended): for every question whose characters are neither ASCII
letters or digits, nor among the twenty accent-foldable characters of the
scorer table, nor one of the two code points U+0130 and U+212A whose Unicode
lowercase is an ASCII letter, CalculateRelevanceScore is 0 for every chunk
text, and query() takes a zero-context early exit — the same response for
every generation backend, with confidence 0 and no sources. -/
theorem nonlatin_question_zero_score_early_exit (cfg : Config)
    (llm llm2 : Str → Option Str) (corpus : Corpus) (question : Str)
    (h : ∀ c ∈ question, isAsciiAlnumChar c = false ∧ c.toNat ∉ foldableCodes
      ∧ c.toNat ≠ 304 ∧ c.toNat ≠ 8490) :
    (∀ T : Str, calculateRelevanceScore (questionWordsOf question) T = 0)
      ∧ queryGo cfg llm corpus question = queryGo cfg llm2 corpus question
      ∧ ∃ r, queryGo cfg llm corpus question = some r
          ∧ r.confidence = 0 ∧ r.sources = [] := by
  have hz : ∀ T : Str, calculateRelevanceScore (questionWordsOf question) T = 0 :=
    fun T => score_zero_of_dead_question question T h
  by_cases hd : docsOf corpus = []
  · have hq : ∀ llm0 : Str → Option Str,
        queryGo cfg llm0 corpus question = some ⟨noDocsAnswer, [], 0, []⟩ := by
      intro llm0; unfold queryGo; rw [if_pos hd]
    exact ⟨hz, by rw [hq llm, hq llm2], ⟨_, hq llm, rfl, rfl⟩⟩
  · by_cases hch : allChunksOf corpus = []
    · have hq : ∀ llm0 : Str → Option Str,
          queryGo cfg llm0 corpus question = some ⟨noContentAnswer, [], 0, []⟩ := by
        intro llm0; unfold queryGo; rw [if_neg hd, if_pos hch]
      exact ⟨hz, by rw [hq llm, hq llm2], ⟨_, hq llm, rfl, rfl⟩⟩
    · have hcp := contextParts_nil_of_zero_scores corpus question hz
      have hq : ∀ llm0 : Str → Option Str,
          queryGo cfg llm0 corpus question = some ⟨noRelevantAnswer, [], 0, []⟩ := by
        intro llm0; unfold queryGo; rw [if_neg hd, if_neg hch, if_pos hcp]
      exact ⟨hz, by rw [hq llm, hq llm2], ⟨_, hq llm, rfl, rfl⟩⟩

def c10wCorpus : Corpus :=
  [(⟨"d1".data, "f1".data, "completed".data⟩, [⟨"c1".data, "alpha".data⟩])]

/-- C10 (witness): the Persian question سلام contains only dead characters,
scores 0 against every chunk and takes the backend-independent early exit. -/
theorem nonlatin_question_zero_score_early_exit_witness :
    (∀ c ∈ "سلام".data, isAsciiAlnumChar c = false ∧ c.toNat ∉ foldableCodes
        ∧ c.toNat ≠ 304 ∧ c.toNat ≠ 8490)
      ∧ ((∀ T : Str, calculateRelevanceScore (questionWordsOf "سلام".data) T = 0)
        ∧ queryGo ⟨"fa".data⟩ (fun _ => some "a".data) c10wCorpus "سلام".data
            = queryGo ⟨"fa".data⟩ (fun _ => some "b".data) c10wCorpus "سلام".data
        ∧ ∃ r, queryGo ⟨"fa".data⟩ (fun _ => some "a".data) c10wCorpus "سلام".data
              = some r ∧ r.confidence = 0 ∧ r.sources = []) :=
  ⟨by decide, nonlatin_question_zero_score_early_exit ⟨"fa".data⟩
    (fun _ => some "a".data) (fun _ => some "b".data) c10wCorpus "سلام".data
    (by decide)⟩

/-- C10 (counterexample): the question ó contains no ASCII letters or digits,
yet normalization folds it to the token o, and against the chunk text o the
relevance score is 640/21, not 0. -/
theorem accented_question_scores_nonzero :
    (∀ c ∈ "ó".data, isAsciiAlnumChar c = false)
      ∧ calculateRelevanceScore (questionWordsOf "ó".data) (toLowerStr "o".data) ≠ 0 := by
  refine ⟨by decide, ?_⟩
  have hcount : countOcc "o".data ["o".data] = 1 := by decide
  have hm : matchLoop ["o".data] ["o".data] = (12, 1) := by
    simp only [matchLoop, hcount]
    norm_num
  have he := score_eval (questionWordsOf "ó".data) (toLowerStr "o".data)
    ["o".data] ["o".data] (by decide) (by decide) (by decide) (by decide)
  have hlen : (normalize (goJoin (questionWordsOf "ó".data) [' '])).length = 1 := by
    decide
  rw [he, hm, hlen]
  rw [if_neg (by rintro ⟨h1, h8⟩; omega)]
  norm_num

/-- C7: whenever the query reaches generation and the backend's raw answer,
lowercased, contains the marker i don't have enough information, Query
returns the fixed locale-appropriate insufficient-information message with
empty sources and confidence 0, regardless of the answer's other content. -/
theorem missing_info_marker_forces_zero_confidence (cfg : Config)
    (llm : Str → Option Str) (corpus : Corpus) (question : Str) (answer : Str)
    (h1 : docsOf corpus ≠ []) (h2 : allChunksOf corpus ≠ [])
    (h3 : contextPartsOf corpus question ≠ [])
    (h4 : llm (promptOf cfg corpus question) = some answer)
    (h5 : containsSub (toLowerStr answer) markerNoInfo2 = true) :
    queryGo cfg llm corpus question
      = some ⟨missingInfoAnswer cfg, [], 0, contextOf corpus question⟩ := by
  have hmiss : isMissingAnswer answer = true := by
    unfold isMissingAnswer
    rw [h5]
    simp
  unfold queryGo
  rw [if_neg h1, if_neg h2, if_neg h3, h4]
  show (if isMissingAnswer answer = true then
      some (⟨missingInfoAnswer cfg, [], 0, contextOf corpus question⟩ : SimpleRAGResponse)
    else some (⟨answer, sourcesOf corpus question, confidenceOf corpus question,
      contextOf corpus question⟩ : SimpleRAGResponse))
    = some (⟨missingInfoAnswer cfg, [], 0, contextOf corpus question⟩ : SimpleRAGResponse)
  rw [if_pos hmiss]

def c7exCorpus : Corpus :=
  [(⟨"d1".data, "f1".data, "completed".data⟩, [⟨"c1".data, "abcd efgh".data⟩])]

def c7exAnswer : Str := "I don't have enough information to answer.".data

theorem c7ex_chunk_score :
    calculateRelevanceScore (questionWordsOf "abcd efgh".data)
      (toLowerStr "abcd efgh".data) = 840 / 11 := by
  have hcount1 : countOcc "abcd".data ["abcd".data, "efgh".data] = 1 := by decide
  have hcount2 : countOcc "efgh".data ["abcd".data, "efgh".data] = 1 := by decide
  have hm : matchLoop ["abcd".data, "efgh".data] ["abcd".data, "efgh".data]
      = (24, 2) := by
    simp only [matchLoop, hcount1, hcount2]
    norm_num
  have he := score_eval (questionWordsOf "abcd efgh".data)
    (toLowerStr "abcd efgh".data)
    ["abcd".data, "efgh".data] ["abcd".data, "efgh".data]
    (by decide) (by decide) (by decide) (by decide)
  have hcon : containsSub (normalize (toLowerStr "abcd efgh".data))
      (normalize (goJoin (questionWordsOf "abcd efgh".data) [' '])) = true := by
    decide
  have hlen9 : (normalize (goJoin (questionWordsOf "abcd efgh".data) [' '])).length
      = 9 := by decide
  rw [he, hm, hcon, hlen9]
  norm_num

theorem c7ex_context_parts :
    contextPartsOf c7exCorpus "abcd efgh".data = ["abcd efgh".data] := by
  have hall : allChunksOf c7exCorpus = [⟨"c1".data, "abcd efgh".data⟩] := by decide
  have hscored : scoredOf c7exCorpus "abcd efgh".data
      = [(⟨"c1".data, "abcd efgh".data⟩, 840 / 11)] := by
    unfold scoredOf
    rw [hall, List.map_cons, List.map_nil, c7ex_chunk_score]
  have hsort : sortScored [((⟨"c1".data, "abcd efgh".data⟩ : ChunkRecord),
      (840 / 11 : ℚ))] = [(⟨"c1".data, "abcd efgh".data⟩, 840 / 11)] := rfl
  have htop : topChunksOf c7exCorpus "abcd efgh".data
      = [(⟨"c1".data, "abcd efgh".data⟩, 840 / 11)] := by
    simp only [topChunksOf, hscored, hsort]
    rw [if_neg (by simp)]
  have hrel : relevantTopChunksOf c7exCorpus "abcd efgh".data
      = [(⟨"c1".data, "abcd efgh".data⟩, 840 / 11)] := by
    unfold relevantTopChunksOf
    rw [htop, List.filter_cons,
      if_pos (decide_eq_true (show relevanceFloorPrimary < 840 / 11 by
        unfold relevanceFloorPrimary; norm_num))]
    rfl
  unfold contextPartsOf
  rw [hrel]
  rfl

/-- C7 (witness): a query whose single chunk scores 840/11 reaches
generation; a backend answer containing the marker is overridden to the
fixed message with no sources and zero confidence. -/
theorem missing_info_marker_forces_zero_confidence_witness :
    queryGo ⟨"en".data⟩ (fun _ => some c7exAnswer) c7exCorpus "abcd efgh".data
      = some ⟨missingInfoAnswer ⟨"en".data⟩, [], 0,
          contextOf c7exCorpus "abcd efgh".data⟩ := by
  apply missing_info_marker_forces_zero_confidence
  · decide
  · decide
  · rw [c7ex_context_parts]
    simp
  · rfl
  · decide

end LocalPdfRag
